import Mathlib

/-!
Verification of the strain/star-rating pipeline of the `rosu-pp-older`
difficulty calculators.

The Rust source computes with `f32`/`f64`; this development embeds the
arithmetic over `ℚ`. Transcendental floating-point primitives (`powf`,
`sqrt`, `ln`) have no exact rational counterpart, so each is passed as an
explicit function parameter to the definition that uses it; all structure
around those calls (guards, clamps, accumulator updates, section
bookkeeping) is translated literally from the source files named in the
doc comments.
-/

/-! ### taiko_2022: star-rating evaluation (`src/taiko_2022/mod.rs`) -/

/-- Output record of `DifficultyValues::eval`, the fields of
`TaikoDifficultyAttributes` that `eval` writes. -/
structure TaikoEvalAttrs where
  stamina : ℚ
  rhythm : ℚ
  color : ℚ
  peak : ℚ
  stars : ℚ
  deriving DecidableEq, Repr

/-- `rescale` from `src/taiko_2022/mod.rs`: `10.43 * ln(stars / 8 + 1)` for
non-negative input, identity for negative input. The natural logarithm is
the parameter `log`. -/
def taikoRescale (log : ℚ → ℚ) (stars : ℚ) : ℚ :=
  if stars < 0 then stars else 10.43 * log (stars / 8 + 1)

/-- `DifficultyValues::eval` from `src/taiko_2022/mod.rs` (lines 235-268):
scales the four skill difficulty values by `DIFFICULTY_MULTIPLIER = 1.35`,
rescales the combined rating, and applies the convert-map penalty
multipliers. -/
def taikoEval (log : ℚ → ℚ) (isConvert : Bool)
    (colorDv rhythmDv staminaDv peaksDv : ℚ) : TaikoEvalAttrs :=
  let difficultyMultiplier : ℚ := 1.35
  let colorRating := colorDv * difficultyMultiplier
  let rhythmRating := rhythmDv * difficultyMultiplier
  let staminaRating := staminaDv * difficultyMultiplier
  let combinedRating := peaksDv * difficultyMultiplier
  let starRating0 := taikoRescale log (combinedRating * 1.4)
  let starRating :=
    if isConvert then
      let s := starRating0 * 0.925
      if colorRating < 2 ∧ staminaRating > 8 then s * 0.8 else s
    else starRating0
  { stamina := staminaRating
    rhythm := rhythmRating
    color := colorRating
    peak := combinedRating
    stars := starRating }

/-! ### osu! standard: final star combination
(`src/osu_2018/stars.rs` lines 113-122, `src/osu_2021_july/mod.rs`
lines 139-148; both use `DIFFICULTY_MULTIPLIER = 0.0675`). The square
root of `f64` is the parameter `sqrtFn`. -/

/-- Aim rating, speed rating, and final stars as computed at the end of
`osu_2018::stars` from the two skills' reduced difficulty values. -/
def osu2018StarsCombine (sqrtFn : ℚ → ℚ) (aimDv speedDv : ℚ) : ℚ × ℚ × ℚ :=
  let aimStrain := sqrtFn aimDv * 0.0675
  let speedStrain := sqrtFn speedDv * 0.0675
  (aimStrain, speedStrain, aimStrain + speedStrain + |aimStrain - speedStrain| / 2)

/-- Aim rating, speed rating, and final stars as computed at the end of
`osu_2021_july::stars`; textually the same combination as in `osu_2018`. -/
def osu2021JulyStarsCombine (sqrtFn : ℚ → ℚ) (aimDv speedDv : ℚ) : ℚ × ℚ × ℚ :=
  let aimRating := sqrtFn aimDv * 0.0675
  let speedRating := sqrtFn speedDv * 0.0675
  (aimRating, speedRating, aimRating + speedRating + |aimRating - speedRating| / 2)

/-! ### Strain skills: taiko_ppv1 `Strain` and fruits_ppv1 `Movement`

`src/taiko_ppv1/strain.rs` and `src/fruits_ppv1/movement.rs`. The numeric
accumulator fields are embedded literally; the skill-specific bonus
function `strain_value_of` (which carries its own auxiliary state:
color/rhythm history for taiko, player position for fruits) is abstracted
as the per-object input `sv`, exactly the role it plays in `process`.
`powf` is passed as a parameter: `decay03 x` models `0.3_f32.powf(x)`
(taiko `STRAIN_DECAY_BASE = 0.3`) and `decay02 x` models
`0.2_f64.powf(x)` (fruits `STRAIN_DECAY_BASE = 0.2`).
`strain_peaks.push` appends at the end of the list. -/

/-- Numeric state of `taiko_ppv1::Strain`. -/
structure StrainState where
  currentStrain : ℚ
  currentSectionPeak : ℚ
  strainPeaks : List ℚ
  prevDelta : Option ℚ
  deriving DecidableEq, Repr

/-- `Strain::new`: strain and section peak start at `1.0`. -/
def StrainState.new : StrainState :=
  { currentStrain := 1
    currentSectionPeak := 1
    strainPeaks := []
    prevDelta := none }

/-- `Strain::strain_decay(ms) = STRAIN_DECAY_BASE.powf(ms / 1000.0)`. -/
def strainDecayWith (decayPow : ℚ → ℚ) (ms : ℚ) : ℚ :=
  decayPow (ms / 1000)

/-- `Strain::save_current_peak`. -/
def StrainState.saveCurrentPeak (s : StrainState) : StrainState :=
  { s with strainPeaks := s.strainPeaks ++ [s.currentSectionPeak] }

/-- `Strain::peak_strain(delta) = current_strain * strain_decay(delta)`. -/
def StrainState.peakStrain (decayPow : ℚ → ℚ) (s : StrainState) (deltaTime : ℚ) : ℚ :=
  s.currentStrain * strainDecayWith decayPow deltaTime

/-- `Strain::start_new_section_from(time)`: the new section peak is the
current strain decayed over `time - prev_delta.unwrap()`. (The source
unwraps `prev_delta`, which is `Some` whenever this is called because the
driver always processes an object first; the `None` case is mapped to a
default of `0`.) -/
def StrainState.startNewSectionFrom (decayPow : ℚ → ℚ) (s : StrainState) (time : ℚ) :
    StrainState :=
  { s with currentSectionPeak := s.peakStrain decayPow (time - s.prevDelta.getD 0) }

/-- `Strain::process` (`src/taiko_ppv1/strain.rs` lines 56-67) with the
object's `strain_value_of` result supplied as `sv`
(`SKILL_MULTIPLIER = 1.0`). -/
def StrainState.process (decayPow : ℚ → ℚ) (s : StrainState) (delta sv : ℚ) : StrainState :=
  let strain1 := s.currentStrain * strainDecayWith decayPow delta
  let strain2 := strain1 + sv * 1
  { currentStrain := strain2
    currentSectionPeak := max strain2 s.currentSectionPeak
    strainPeaks := s.strainPeaks
    prevDelta := some delta }

/-- Numeric state of `fruits_ppv1::Movement`. -/
structure MovementState where
  currentStrain : ℚ
  currentSectionPeak : ℚ
  strainPeaks : List ℚ
  prevTime : Option ℚ
  deriving DecidableEq, Repr

/-- `Movement::new`. -/
def MovementState.new : MovementState :=
  { currentStrain := 1
    currentSectionPeak := 1
    strainPeaks := []
    prevTime := none }

/-- `Movement::process` (`src/fruits_ppv1/movement.rs` lines 51-56) with
the object's `strain_value_of` result supplied as `sv`
(`SKILL_MULTIPLIER = 850.0`); `baseTime` is `current.base.time`. -/
def MovementState.process (decayPow : ℚ → ℚ) (s : MovementState)
    (delta sv baseTime : ℚ) : MovementState :=
  let strain1 := s.currentStrain * strainDecayWith decayPow delta
  let strain2 := strain1 + sv * 850
  { currentStrain := strain2
    currentSectionPeak := max strain2 s.currentSectionPeak
    strainPeaks := s.strainPeaks
    prevTime := some baseTime }

/-! ### Difficulty reducer (`Strain::difficulty_value`,
`Movement::difficulty_value`)

The source sorts `strain_peaks` descending with
`sort_unstable_by(|a, b| b.partial_cmp(a))` and folds
`difficulty += strain * weight; weight *= DECAY_WEIGHT`. The standard
library sort is modelled by insertion sort, which has the same observable
behaviour (a `(· ≥ ·)`-sorted permutation). -/

/-- Descending sort of the peak list. -/
def sortPeaksDesc (peaks : List ℚ) : List ℚ :=
  List.insertionSort (· ≥ ·) peaks

/-- The weight fold from `difficulty_value`: starting from
`difficulty = 0.0, weight = 1.0`, each peak contributes `strain * weight`
and the weight is then multiplied by the decay weight `w`. -/
def weightedSumFold (w : ℚ) (peaks : List ℚ) : ℚ :=
  (peaks.foldl (fun acc s => (acc.1 + s * acc.2, acc.2 * w)) ((0 : ℚ), (1 : ℚ))).1

/-- `difficulty_value` with decay weight `w`: sort descending, then the
weight fold. -/
def difficultyValueWith (w : ℚ) (peaks : List ℚ) : ℚ :=
  weightedSumFold w (sortPeaksDesc peaks)

/-- `Strain::difficulty_value` (`src/taiko_ppv1/strain.rs` lines 132-146,
`DECAY_WEIGHT = 0.9`). -/
def StrainState.difficultyValue (s : StrainState) : ℚ :=
  difficultyValueWith 0.9 s.strainPeaks

/-- `Movement::difficulty_value` (`src/fruits_ppv1/movement.rs` lines
58-71, `DECAY_WEIGHT = 0.94`). -/
def MovementState.difficultyValue (s : MovementState) : ℚ :=
  difficultyValueWith 0.94 s.strainPeaks

/-- The geometric weighted sum named in the specification:
`Σ peak[i] * decay_weight^i` over the list. -/
def specGeometricWeightedSum (w : ℚ) (peaks : List ℚ) : ℚ :=
  ∑ i in Finset.range peaks.length, peaks.getD i 0 * w ^ i

/-! ### Strain driver: section rollover loop

The per-mode drivers share one shape; this embedding follows
`mania_2018::calculate_strain` (`src/mania_2018/mod.rs` lines 123-146)
instantiated with the taiko_ppv1 `Strain` skill
(`src/taiko_ppv1/strain.rs`): seed the first section boundary from the
first processed object's time (`(start_time / SECTION_LEN).ceil() *
SECTION_LEN`), process the first object, then for every later object run
`while start_time > curr_section_end { save_current_peak;
start_new_section_from(curr_section_end); curr_section_end +=
SECTION_LEN }` before processing it, and push the final section peak
once after the loop. Each difficulty object is given by its start time,
its delta, and its `strain_value_of` result `sv`. -/

/-- A difficulty object as seen by the strain driver. -/
structure StrainObj where
  startTime : ℚ
  delta : ℚ
  sv : ℚ
  deriving DecidableEq, Repr

/-- One iteration budget for the section-rollover `while` loop: the loop
body runs while `t > sectionEnd`, advancing `sectionEnd` by the section
length each time, so `⌈(t - sectionEnd) / sectionLen⌉` iterations always
suffice (the source loop does not terminate for a non-positive section
length, which cannot arise since `SECTION_LEN > 0` and the clock rate is
positive). -/
def rolloverSteps (sectionLen sectionEnd t : ℚ) : ℕ :=
  if 0 < sectionLen then (⌈(t - sectionEnd) / sectionLen⌉).toNat else 0

/-- The rollover `while` loop with an explicit iteration budget: while
`t > sectionEnd`, save the current peak, start a new section from the old
boundary, and advance the boundary. -/
def rolloverFuel (decayPow : ℚ → ℚ) (sectionLen t : ℚ) :
    ℕ → ℚ → StrainState → ℚ × StrainState
  | 0, sectionEnd, s => (sectionEnd, s)
  | fuel + 1, sectionEnd, s =>
    if t > sectionEnd then
      rolloverFuel decayPow sectionLen t fuel (sectionEnd + sectionLen)
        ((s.saveCurrentPeak).startNewSectionFrom decayPow sectionEnd)
    else (sectionEnd, s)

/-- The section-rollover loop run to completion. -/
def rollover (decayPow : ℚ → ℚ) (sectionLen t sectionEnd : ℚ) (s : StrainState) :
    ℚ × StrainState :=
  rolloverFuel decayPow sectionLen t (rolloverSteps sectionLen sectionEnd t) sectionEnd s

/-- The driver's main loop over all objects after the first. -/
def strainLoop (decayPow : ℚ → ℚ) (sectionLen : ℚ) :
    List StrainObj → ℚ → StrainState → ℚ × StrainState
  | [], sectionEnd, s => (sectionEnd, s)
  | h :: rest, sectionEnd, s =>
    let rolled := rollover decayPow sectionLen h.startTime sectionEnd s
    strainLoop decayPow sectionLen rest rolled.1
      (rolled.2.process decayPow h.delta h.sv)

/-- `calculate_strain`: seed the boundary from the first object, process
it (no rollover is saved before the first object), run the main loop, and
save the final section peak once, unconditionally. With no objects the
skill state is returned untouched (no final save). -/
def calculateStrain (decayPow : ℚ → ℚ) (sectionLen : ℚ) (objs : List StrainObj) :
    StrainState :=
  match objs with
  | [] => StrainState.new
  | h :: rest =>
    let sectionEnd : ℚ := ⌈h.startTime / sectionLen⌉ * sectionLen
    let s := StrainState.new.process decayPow h.delta h.sv
    let finished := strainLoop decayPow sectionLen rest sectionEnd s
    finished.2.saveCurrentPeak

/-! ### Control-point lookup (`src/util/control_points.rs`)

`timing_point_at` and `difficulty_point_at` call
`slice::binary_search_by(|probe| probe.time.total_cmp(&time))`. The
standard library's binary search is embedded below following its current
implementation (halving loop over `left`/`right`, early return on
`Ordering::Equal`, result `Ok(mid)` or `Err(left)`); `total_cmp` on
non-NaN times is the total order `compare` on `ℚ`. Only the fields the
lookups touch are modelled (`time` plus one payload field, so that
distinct points remain distinguishable). -/

/-- A timing control point: `time` and `beat_len`. -/
structure TimingPoint where
  time : ℚ
  beatLen : ℚ
  deriving DecidableEq, Repr

/-- A difficulty control point: `time` and `slider_velocity`. -/
structure DifficultyPoint where
  time : ℚ
  sliderVelocity : ℚ
  deriving DecidableEq, Repr

/-- Result of `slice::binary_search_by`: `Ok(i)` or `Err(i)`. -/
inductive SearchResult where
  | found (i : ℕ)
  | notFound (i : ℕ)
  deriving DecidableEq, Repr

/-- The halving loop of `slice::binary_search_by` with an explicit fuel;
a fuel of `right - left` always suffices since the window shrinks every
iteration, and an exhausted budget returns the same `Err(left)` as the
loop exit. -/
def binarySearchLoop (cmp : ℕ → Ordering) : ℕ → ℕ → ℕ → SearchResult
  | 0, left, _ => .notFound left
  | fuel + 1, left, right =>
    if left < right then
      let size := right - left
      let mid := left + size / 2
      match cmp mid with
      | .lt => binarySearchLoop cmp fuel (mid + 1) right
      | .gt => binarySearchLoop cmp fuel left mid
      | .eq => .found mid
    else .notFound left

/-- `slice::binary_search_by` over indices `0..len`. -/
def binarySearchBy (cmp : ℕ → Ordering) (len : ℕ) : SearchResult :=
  binarySearchLoop cmp len 0 len

/-- `timing_point_at` (`src/util/control_points.rs` lines 3-9):
`binary_search_by(..).unwrap_or_else(|i| i.saturating_sub(1))`, then
`points.get(i)`. Natural subtraction is saturating subtraction. -/
def timingPointAt (points : List TimingPoint) (time : ℚ) : Option TimingPoint :=
  let i :=
    match binarySearchBy (fun j => compare ((points.getD j ⟨0, 0⟩).time) time)
        points.length with
    | .found i => i
    | .notFound i => i - 1
  points[i]?

/-- `difficulty_point_at` (`src/util/control_points.rs` lines 11-16):
`binary_search_by(..).map_or_else(|i| i.checked_sub(1), Some)`, then
`.map(|i| &points[i])`. The successful indices are always in bounds, so
the panicking index `&points[i]` is the total lookup `points[i]?`. -/
def difficultyPointAt (points : List DifficultyPoint) (time : ℚ) :
    Option DifficultyPoint :=
  let idx : Option ℕ :=
    match binarySearchBy (fun j => compare ((points.getD j ⟨0, 0⟩).time) time)
        points.length with
    | .found i => some i
    | .notFound 0 => none
    | .notFound (k + 1) => some k
  idx.bind fun i => points[i]?

/-- The lookup semantics named by the specification: the last control
point whose `time` is at most the query time, if any. -/
def specLastTimingAtOrBefore (points : List TimingPoint) (time : ℚ) :
    Option TimingPoint :=
  (points.filter fun p => decide (p.time ≤ time)).getLast?

/-- The lookup semantics named by the specification, for difficulty
points. -/
def specLastDifficultyAtOrBefore (points : List DifficultyPoint) (time : ℚ) :
    Option DifficultyPoint :=
  (points.filter fun p => decide (p.time ≤ time)).getLast?

/-! ### Difficulty-object construction: delta computation

`src/osu_2015/difficulty_object.rs` lines 11-30 and
`src/mania_2018/mod.rs` lines 157-170. The Euclidean norm of an `f32`
vector is the parameter `lengthFn`. -/

/-- The fields of `osu_2015::OsuObject` read by `DifficultyObject::new`. -/
structure Osu2015Object where
  pos : ℚ × ℚ
  endPos : ℚ × ℚ
  time : ℚ
  travelDist : Option ℚ
  deriving DecidableEq, Repr

/-- `osu_2015::DifficultyObject`. -/
structure Osu2015DifficultyObject where
  travelDist : ℚ
  dist : ℚ
  delta : ℚ
  deriving DecidableEq, Repr

/-- `osu_2015::DifficultyObject::new`: the delta is the clock-adjusted
time difference floor-clamped at 50 ms; the spacing distance is the norm
of the position difference to the previous cursor position, scaled. -/
def Osu2015DifficultyObject.new (lengthFn : ℚ × ℚ → ℚ) (base prev : Osu2015Object)
    (clockRate scalingFactor : ℚ) : Osu2015DifficultyObject :=
  let delta := max ((base.time - prev.time) / clockRate) 50
  let pos := base.pos
  let prevCursorPos := prev.endPos
  let travelDist := prev.travelDist.getD 0
  let dist := lengthFn (pos.1 - prevCursorPos.1, pos.2 - prevCursorPos.2) * scalingFactor
  { travelDist := travelDist, dist := dist, delta := delta }

/-- The fields of a mania hit object read by
`mania_2018::DifficultyHitObject::new`. -/
structure ManiaHitObject where
  posX : ℚ
  startTime : ℚ
  deriving DecidableEq, Repr

/-- `mania_2018::DifficultyHitObject` (its derived scalar fields). -/
structure ManiaDifficultyHitObject where
  column : ℚ
  delta : ℚ
  startTime : ℚ
  deriving DecidableEq, Repr

/-- `mania_2018::DifficultyHitObject::new`: the delta is the raw time
difference divided by the clock rate with *no* floor clamp; `column` is
`(pos.x / (512 / columns)).floor().min(columns - 1)` (the final `usize`
cast is kept as the rational value). -/
def ManiaDifficultyHitObject.new (base prev : ManiaHitObject)
    (columns clockRate : ℚ) : ManiaDifficultyHitObject :=
  let xDivisor := 512 / columns
  let column := min (⌊base.posX / xDivisor⌋ : ℚ) (columns - 1)
  { column := column
    delta := (base.startTime - prev.startTime) / clockRate
    startTime := base.startTime / clockRate }

/-! ### mania_2018 mode dispatch (`src/mania_2018/mod.rs` lines 80-112)

`calculate_strain` chooses the column count from the map's game mode and
*panics* (`panic!("can not calculate mania difficulty on a ... map")`) on
any mode other than Mania or Osu; the panic is modelled as
`Except.error`. In the Osu branch, `(n_objects - n_circles) as f32 /
n_objects as f32` is NaN when the map has no objects, and every NaN
comparison is false; the embedding guards each ratio comparison with
`n_objects ≠ 0` to reproduce exactly that. `f32::round` (half away from
zero) is modelled by `round` (they differ only at negative half-integers,
which cannot occur for the non-negative cs/od settings). `as u8` casts
saturate to `[0, 255]`, and the subsequent `u8` addition
`rounded_od as u8 + 1` wraps modulo 256 (release-mode semantics: an od
rounding to 255 wraps the increment to 0, which the clamp lifts to 4; a
debug build would instead panic on that overflow). -/

/-- The game modes of rosu-pp (`Catch` is written `fruits`). -/
inductive GameMode where
  | osu
  | taiko
  | fruits
  | mania
  deriving DecidableEq, Repr

/-- The column-count selection at the head of
`mania_2018::calculate_strain`, with the `panic!` branch as an error; the
fallback Osu arm is `(rounded_od as u8 + 1).clamp(4, 7)` with the `u8`
increment taken modulo 256 (wrapping release-mode arithmetic). -/
def maniaColumns (mode : GameMode) (cs od : ℚ)
    (nCircles nSliders nSpinners : ℕ) : Except String ℕ :=
  let roundedCs : ℤ := round cs
  match mode with
  | .mania => .ok (Int.toNat (min (max roundedCs 1) 255))
  | .osu =>
    let roundedOd : ℤ := round od
    let nObjects := nCircles + nSliders + nSpinners
    let fracLt : ℚ → Bool := fun c =>
      decide (nObjects ≠ 0) && decide (((nObjects - nCircles : ℕ) : ℚ) / nObjects < c)
    let fracGt : ℚ → Bool := fun c =>
      decide (nObjects ≠ 0) && decide (c < ((nObjects - nCircles : ℕ) : ℚ) / nObjects)
    .ok (if fracLt 0.2 then 7
      else if fracLt 0.3 || decide ((5 : ℤ) ≤ roundedCs) then
        6 + (if (5 : ℤ) < roundedOd then 1 else 0)
      else if fracGt 0.6 then 4 + (if (4 : ℤ) < roundedOd then 1 else 0)
      else min (max ((Int.toNat (min roundedOd 255) + 1) % 256) 4) 7)
  | .taiko => .error "can not calculate mania difficulty on a taiko map"
  | .fruits => .error "can not calculate mania difficulty on a fruits map"

/-! ### Degenerate-input guards (`src/taiko_ppv1/mod.rs` lines 19-60,
`src/fruits_ppv1/mod.rs` lines 37-40)

Only the guard and the panic-relevant control flow around it are
embedded; the `≥ 2`-object strain pipeline that follows is abstracted as
the function parameter `pipeline`, so a theorem quantified over
`pipeline` shows the pipeline is not consulted. In `taiko_ppv1::stars`,
after the `take < 2` guard the code indexes `map.hit_objects[0]` and
unwraps the first difficulty object; both panic when the map itself has
fewer than 2 objects, modelled as `Except.error`. -/

/-- The fields of a beatmap read by the embedded part of
`taiko_ppv1::stars`: hit-object start times and the circle count. -/
structure TaikoMap where
  hitObjects : List ℚ
  nCircles : ℕ
  deriving DecidableEq, Repr

/-- `taiko_ppv1::TaikoDifficultyAttributes`. -/
structure TaikoPpv1Attrs where
  stars : ℚ
  maxCombo : ℕ
  deriving DecidableEq, Repr

/-- `taiko_ppv1::stars`: `take = passed_objects.unwrap_or(len)`;
`max_combo = map.n_circles`; `take < 2` returns stars 0 with that
max combo; otherwise `map.hit_objects[0]` (a panic on an empty map) and
the `.unwrap()` of the first difficulty object (a panic when fewer than
2 objects survive `take(take).skip(1)`) run before the pipeline. -/
def taikoPpv1Stars (pipeline : TaikoMap → ℕ → TaikoPpv1Attrs)
    (map : TaikoMap) (passedObjects : Option ℕ) : Except String TaikoPpv1Attrs :=
  let take := passedObjects.getD map.hitObjects.length
  let maxCombo := map.nCircles
  if take < 2 then .ok { stars := 0, maxCombo := maxCombo }
  else
    match map.hitObjects with
    | [] => .error "index out of bounds"
    | _ :: _ =>
      match (map.hitObjects.take take).drop 1 with
      | [] => .error "called unwrap on a None value"
      | _ :: _ => .ok (pipeline map take)

/-- `rosu_pp::catch::CatchDifficultyAttributes` (the fields written by
`fruits_ppv1`); `Default` is all zeros. -/
structure CatchAttrs where
  stars : ℚ
  ar : ℚ
  nFruits : ℕ
  nDroplets : ℕ
  nTinyDroplets : ℕ
  deriving DecidableEq, Repr

/-- `CatchDifficultyAttributes::default()`. -/
def catchDefault : CatchAttrs :=
  { stars := 0, ar := 0, nFruits := 0, nDroplets := 0, nTinyDroplets := 0 }

/-- `fruits_ppv1::stars`: fewer than 2 hit objects returns the all-zero
default before anything else runs. -/
def fruitsPpv1Stars (pipeline : List ℚ → ℕ → CatchAttrs)
    (hitObjects : List ℚ) (mods : ℕ) : CatchAttrs :=
  if hitObjects.length < 2 then catchDefault
  else pipeline hitObjects mods

/-! ### `StrainsVec` (`src/util/strains_vec.rs`)

A compressed `Vec<f64>`: positive values are stored directly, runs of
consecutive zeros as a count (`new_zero` starts a run of 1,
`incr_zero_count` extends it). `push` stores a value entry exactly when
the pushed value is positive (`to_bits() > 0 && is_sign_positive()`),
otherwise takes the zero path. `into_vec`'s block-copy loop and the
`StrainsIter` state machine are embedded by their per-element effect. -/

/-- `StrainsEntry`: a positive value or a run of consecutive zeros. -/
inductive StrainsEntry where
  | value (v : ℚ)
  | zeroRun (count : ℕ)
  deriving DecidableEq, Repr

/-- `StrainsVec`: compressed entries plus the logical length. -/
structure StrainsVec where
  inner : List StrainsEntry
  len : ℕ
  deriving DecidableEq, Repr

/-- `StrainsVec::with_capacity` (empty). -/
def StrainsVec.withCapacity : StrainsVec :=
  { inner := [], len := 0 }

/-- The zero path of `push`: increment a trailing zero run, or append a
fresh run of one zero (`new_zero`). -/
def pushZeroEntry : List StrainsEntry → List StrainsEntry
  | [] => [StrainsEntry.zeroRun 1]
  | [StrainsEntry.zeroRun n] => [StrainsEntry.zeroRun (n + 1)]
  | [StrainsEntry.value v] => [StrainsEntry.value v, StrainsEntry.zeroRun 1]
  | e :: e2 :: rest => e :: pushZeroEntry (e2 :: rest)

/-- `StrainsVec::push` (`src/util/strains_vec.rs` lines 44-62). -/
def StrainsVec.push (sv : StrainsVec) (x : ℚ) : StrainsVec :=
  if 0 < x then { inner := sv.inner ++ [StrainsEntry.value x], len := sv.len + 1 }
  else { inner := pushZeroEntry sv.inner, len := sv.len + 1 }

/-- The sequence of values an entry stands for. -/
def StrainsEntry.expand : StrainsEntry → List ℚ
  | .value v => [v]
  | .zeroRun n => List.replicate n 0

/-- The sequence of values an entry list stands for (the specification's
plain `Vec<f64>` reading of the compressed representation). -/
def expandEntries (entries : List StrainsEntry) : List ℚ :=
  entries.flatMap StrainsEntry.expand

/-- `StrainsVec::into_vec` (lines 138-182): values are copied through,
zero runs are expanded by `iter::repeat(0.0).take(count)`. -/
def intoVecAux : List StrainsEntry → List ℚ
  | [] => []
  | StrainsEntry.value v :: rest => v :: intoVecAux rest
  | StrainsEntry.zeroRun n :: rest => List.replicate n 0 ++ intoVecAux rest

/-- `StrainsVec::into_vec` on the whole vector. -/
def StrainsVec.intoVec (sv : StrainsVec) : List ℚ :=
  intoVecAux sv.inner

/-- `StrainsIter::next` (lines 204-233): emit a value and advance, emit
one zero of a non-empty run and decrement it, or skip an exhausted run
and loop. The iterator state is the current entry plus the remaining
entries. -/
def iterNext : Option StrainsEntry → List StrainsEntry →
    Option (ℚ × (Option StrainsEntry × List StrainsEntry))
  | none, _ => none
  | some (StrainsEntry.value v), rest => some (v, (rest.head?, rest.tail))
  | some (StrainsEntry.zeroRun (n + 1)), rest =>
    some (0, (some (StrainsEntry.zeroRun n), rest))
  | some (StrainsEntry.zeroRun 0), [] => none
  | some (StrainsEntry.zeroRun 0), e :: rest => iterNext (some e) rest

/-- An upper bound on how many elements an entry can emit. -/
def entryWeight : StrainsEntry → ℕ
  | .value _ => 1
  | .zeroRun n => n + 1

/-- Total emission bound of an entry list. -/
def entriesWeight (entries : List StrainsEntry) : ℕ :=
  (entries.map entryWeight).sum

/-- Driving `StrainsIter` to exhaustion, with an explicit iteration
budget (`entriesWeight` always suffices). -/
def iterDrainFuel : ℕ → Option StrainsEntry → List StrainsEntry → List ℚ
  | 0, _, _ => []
  | fuel + 1, curr, rest =>
    match iterNext curr rest with
    | none => []
    | some (x, (c2, r2)) => x :: iterDrainFuel fuel c2 r2

/-- All elements produced by `StrainsVec::iter` in order
(`StrainsIter::new` seeds the state with the first entry). -/
def StrainsVec.iterToList (sv : StrainsVec) : List ℚ :=
  iterDrainFuel (entriesWeight sv.inner + 1) sv.inner.head? sv.inner.tail

/-- Pushing a whole list of values into a fresh `StrainsVec`. -/
def pushAll (vs : List ℚ) : StrainsVec :=
  vs.foldl StrainsVec.push StrainsVec.withCapacity

/-- Well-formedness of the compressed entries: zero runs are never
empty (`new_zero` starts at 1 and counts only grow). -/
def EntriesWF (entries : List StrainsEntry) : Prop :=
  ∀ n : ℕ, StrainsEntry.zeroRun n ∈ entries → 1 ≤ n

/-! ### Theorems -/

/-- C1: In the taiko_2022 difficulty evaluation, for every input ratings
tuple, the convert flag multiplies the rescaled star rating by `0.925`,
with an extra `0.8` exactly when `color rating < 2.0` and
`stamina rating > 8.0`; a non-convert map gets neither multiplier. -/
theorem taiko2022_convert_penalty (log : ℚ → ℚ) (isConvert : Bool)
    (colorDv rhythmDv staminaDv peaksDv : ℚ) :
    (taikoEval log isConvert colorDv rhythmDv staminaDv peaksDv).stars =
      taikoRescale log (peaksDv * 1.35 * 1.4) *
        (if isConvert then
          0.925 * (if colorDv * 1.35 < 2 ∧ staminaDv * 1.35 > 8 then 0.8 else 1)
         else 1) := by
  cases isConvert with
  | false => simp [taikoEval]
  | true =>
    by_cases h : colorDv * 1.35 < 2 ∧ staminaDv * 1.35 > 8
    · simp only [taikoEval, if_pos h, if_true]
      ring
    · simp only [taikoEval, if_neg h, if_true]
      ring

/-- C6: the final osu! standard star rating (in both the `osu_2018` and the
`osu_2021_july` revision) equals
`aim_rating + speed_rating + |aim_rating - speed_rating| / 2` where each
rating is the square root of the corresponding skill's reduced difficulty
value multiplied by `0.0675`; equivalently it is
`3/2 * max + 1/2 * min` of the two ratings. -/
theorem osu_stars_combination (sqrtFn : ℚ → ℚ) (aimDv speedDv : ℚ) :
    (osu2018StarsCombine sqrtFn aimDv speedDv).2.2 =
        sqrtFn aimDv * 0.0675 + sqrtFn speedDv * 0.0675 +
          |sqrtFn aimDv * 0.0675 - sqrtFn speedDv * 0.0675| / 2 ∧
      osu2021JulyStarsCombine sqrtFn aimDv speedDv =
        osu2018StarsCombine sqrtFn aimDv speedDv ∧
      (osu2018StarsCombine sqrtFn aimDv speedDv).2.2 =
        3 / 2 * max (sqrtFn aimDv * 0.0675) (sqrtFn speedDv * 0.0675) +
          1 / 2 * min (sqrtFn aimDv * 0.0675) (sqrtFn speedDv * 0.0675) := by
  refine ⟨rfl, rfl, ?_⟩
  simp only [osu2018StarsCombine]
  rcases le_total (sqrtFn aimDv * 0.0675) (sqrtFn speedDv * 0.0675) with h | h
  · rw [abs_of_nonpos (by linarith), max_eq_right h, min_eq_left h]
    ring
  · rw [abs_of_nonneg (by linarith), max_eq_left h, min_eq_right h]
    ring


/-- C4: one `process` call updates the accumulator exactly as
`current_strain := current_strain * base^(delta/1000) + skill_multiplier *
strain_value_of(object)` and `current_section_peak :=
max(current_section_peak, current_strain)`, for both the taiko_ppv1
`Strain` skill (multiplier 1) and the fruits_ppv1 `Movement` skill
(multiplier 850); `decayPow x` stands for `base^x` of the respective
skill. -/
theorem strain_process_update (decayPow : ℚ → ℚ) (s : StrainState)
    (m : MovementState) (delta sv baseTime : ℚ) :
    ((s.process decayPow delta sv).currentStrain =
        s.currentStrain * decayPow (delta / 1000) + 1 * sv ∧
      (s.process decayPow delta sv).currentSectionPeak =
        max s.currentSectionPeak (s.process decayPow delta sv).currentStrain ∧
      (s.process decayPow delta sv).strainPeaks = s.strainPeaks) ∧
    ((m.process decayPow delta sv baseTime).currentStrain =
        m.currentStrain * decayPow (delta / 1000) + 850 * sv ∧
      (m.process decayPow delta sv baseTime).currentSectionPeak =
        max m.currentSectionPeak (m.process decayPow delta sv baseTime).currentStrain ∧
      (m.process decayPow delta sv baseTime).strainPeaks = m.strainPeaks) := by
  refine ⟨⟨?_, ?_, rfl⟩, ⟨?_, ?_, rfl⟩⟩
  · show s.currentStrain * decayPow (delta / 1000) + sv * 1 =
      s.currentStrain * decayPow (delta / 1000) + 1 * sv
    ring
  · show max (s.currentStrain * decayPow (delta / 1000) + sv * 1) s.currentSectionPeak =
      max s.currentSectionPeak (s.currentStrain * decayPow (delta / 1000) + sv * 1)
    exact max_comm _ _
  · show m.currentStrain * decayPow (delta / 1000) + sv * 850 =
      m.currentStrain * decayPow (delta / 1000) + 850 * sv
    ring
  · show max (m.currentStrain * decayPow (delta / 1000) + sv * 850) m.currentSectionPeak =
      max m.currentSectionPeak (m.currentStrain * decayPow (delta / 1000) + sv * 850)
    exact max_comm _ _

/-- Generalized fold characterization: the `difficulty_value` weight fold
started from an arbitrary accumulator. -/
theorem weightedFold_general (w : ℚ) (l : List ℚ) : ∀ d wt : ℚ,
    (l.foldl (fun acc s => (acc.1 + s * acc.2, acc.2 * w)) (d, wt)).1 =
      d + wt * specGeometricWeightedSum w l := by
  induction l with
  | nil =>
    intro d wt
    simp [specGeometricWeightedSum]
  | cons a t ih =>
    intro d wt
    rw [List.foldl_cons, ih]
    simp only [specGeometricWeightedSum, List.length_cons]
    rw [Finset.sum_range_succ']
    have h1 : ∀ i : ℕ, (a :: t).getD (i + 1) 0 = t.getD i 0 := fun i => rfl
    have h2 : (a :: t).getD 0 0 * w ^ 0 = a := by simp
    have h3 : ∑ i in Finset.range t.length, (a :: t).getD (i + 1) 0 * w ^ (i + 1) =
        w * ∑ i in Finset.range t.length, t.getD i 0 * w ^ i := by
      rw [Finset.mul_sum]
      refine Finset.sum_congr rfl fun i _ => ?_
      rw [h1 i]
      ring
    rw [h2, h3]
    ring

/-- The weight fold equals the specification's geometric weighted sum. -/
theorem weightedSumFold_eq_spec (w : ℚ) (l : List ℚ) :
    weightedSumFold w l = specGeometricWeightedSum w l := by
  simpa [weightedSumFold] using weightedFold_general w l 0 1

/-- C5: for every finalized peak list (all entries non-negative),
`difficulty_value` first arranges the peaks in descending order and then
returns exactly `Σ peak[i] * decay_weight^i` over the sorted list: the
sorted list is a permutation of the input, is sorted descending, keeps
all entries non-negative, and the fold computes the geometric weighted
sum. Instantiated with `w = 0.9` this is `Strain::difficulty_value` and
with `w = 0.94` it is `Movement::difficulty_value`. -/
theorem difficulty_value_sorted_weighted (w : ℚ) (peaks : List ℚ)
    (hnn : ∀ x ∈ peaks, 0 ≤ x) :
    difficultyValueWith w peaks = specGeometricWeightedSum w (sortPeaksDesc peaks) ∧
      (sortPeaksDesc peaks).Perm peaks ∧
      (sortPeaksDesc peaks).Sorted (· ≥ ·) ∧
      ∀ x ∈ sortPeaksDesc peaks, 0 ≤ x := by
  refine ⟨weightedSumFold_eq_spec w (sortPeaksDesc peaks),
    List.perm_insertionSort _ peaks, List.sorted_insertionSort _ peaks, ?_⟩
  intro x hx
  exact hnn x ((List.perm_insertionSort _ peaks).mem_iff.mp hx)

/-- Witness for C5 at the concrete peak list `[2, 5, 3]` with decay
weight `1/2`: the reducer sorts to `[5, 3, 2]` and returns
`5 + 3/2 + 2/4 = 7`. -/
theorem difficulty_value_sorted_weighted_witness :
    (∀ x ∈ [(2 : ℚ), 5, 3], 0 ≤ x) ∧
      difficultyValueWith (1 / 2) [(2 : ℚ), 5, 3] = 7 ∧
      sortPeaksDesc [(2 : ℚ), 5, 3] = [5, 3, 2] := by
  have h := difficulty_value_sorted_weighted (1 / 2) [(2 : ℚ), 5, 3] (by norm_num)
  have hsort : sortPeaksDesc [(2 : ℚ), 5, 3] = [5, 3, 2] := by
    norm_num [sortPeaksDesc, List.insertionSort, List.orderedInsert]
  refine ⟨by norm_num, h.1.trans ?_, hsort⟩
  rw [hsort]
  norm_num [specGeometricWeightedSum, Finset.sum_range_succ]

/-- Unrolling the rollover loop: one iteration while the guard holds. -/
theorem rolloverFuel_step (decayPow : ℚ → ℚ) (sectionLen t : ℚ) (fuel : ℕ)
    (sectionEnd : ℚ) (s : StrainState) (h : t > sectionEnd) :
    rolloverFuel decayPow sectionLen t (fuel + 1) sectionEnd s =
      rolloverFuel decayPow sectionLen t fuel (sectionEnd + sectionLen)
        ((s.saveCurrentPeak).startNewSectionFrom decayPow sectionEnd) := by
  simp [rolloverFuel, h]

/-- The rollover loop stops when the budget is exhausted. -/
theorem rolloverFuel_zero (decayPow : ℚ → ℚ) (sectionLen t sectionEnd : ℚ)
    (s : StrainState) :
    rolloverFuel decayPow sectionLen t 0 sectionEnd s = (sectionEnd, s) := rfl

/-- If the guard holds for every iteration of the budget, the rollover
loop saves exactly one peak per iteration. -/
theorem rolloverFuel_run_length (decayPow : ℚ → ℚ) (sectionLen t : ℚ) :
    ∀ (fuel : ℕ) (sectionEnd : ℚ) (s : StrainState),
      (∀ k : ℕ, k < fuel → t > sectionEnd + k * sectionLen) →
      (rolloverFuel decayPow sectionLen t fuel sectionEnd s).2.strainPeaks.length =
        s.strainPeaks.length + fuel := by
  intro fuel
  induction fuel with
  | zero =>
    intro e s _
    simp [rolloverFuel]
  | succ n ih =>
    intro e s hall
    have h0 : t > e := by simpa using hall 0 (Nat.succ_pos n)
    rw [rolloverFuel_step _ _ _ _ _ _ h0]
    have hrest : ∀ k : ℕ, k < n → t > (e + sectionLen) + k * sectionLen := by
      intro k hk
      have h1 := hall (k + 1) (by omega)
      push_cast at h1 ⊢
      linarith
    rw [ih (e + sectionLen) ((s.saveCurrentPeak).startNewSectionFrom decayPow e) hrest]
    simp [StrainState.saveCurrentPeak, StrainState.startNewSectionFrom]
    omega

/-- C3 counterexample: a two-object skill input separated by exactly 3.5
section lengths (400-length sections, first object at t = 300, which is
not on a section boundary) produces a peak list with 5 entries, not 4:
the first object sits more than half a section past the previous
boundary, so the loop crosses four boundaries before the second object,
and the final save adds a fifth entry. -/
theorem strain_rollover_count_counterexample :
    (calculateStrain (fun x => x) 400
        [⟨300, 100, 1⟩, ⟨1700, 100, 1⟩]).strainPeaks.length = 5 := by
  have hceil1 : (⌈(300 : ℚ) / 400⌉ : ℤ) = 1 := by
    rw [Int.ceil_eq_iff]
    norm_num
  simp only [calculateStrain, strainLoop, rollover, rolloverSteps, hceil1]
  norm_num [StrainState.new, StrainState.process, strainDecayWith]
  have h4 : (⌈(13 : ℚ) / 4⌉).toNat = 4 := by
    rw [show (⌈(13 : ℚ) / 4⌉ : ℤ) = 4 by rw [Int.ceil_eq_iff]; norm_num]
    rfl
  rw [h4]
  simp only [StrainState.saveCurrentPeak, List.length_append, List.length_cons,
    List.length_nil]
  rw [rolloverFuel_run_length]
  · simp
  · intro k hk
    interval_cases k <;> norm_num

/-- C3 (amended): for a two-object skill input separated by exactly 3.5
section lengths whose first object is not on a section boundary and lies
at most half a section length past the previous boundary, the finalized
peak list has exactly 4 entries: the first-object section's peak, two
pure-decay carryovers of the strain at the first object — decayed, per
the taiko_ppv1 `start_new_section_from`, over `boundary - delta₁` (the
previous object's *delta*, not its timestamp) — and the unconditional
final save. (If the first object lies more than half a section past the
boundary, a fifth entry appears.) -/
theorem strain_section_rollover (decayPow : ℚ → ℚ) (L T1 d1 v1 d2 v2 : ℚ)
    (hL : 0 < L)
    (hnb : (⌈T1 / L⌉ : ℚ) * L ≠ T1)
    (hhalf : T1 + L / 2 ≤ (⌈T1 / L⌉ : ℚ) * L) :
    (calculateStrain decayPow L [⟨T1, d1, v1⟩, ⟨T1 + 3.5 * L, d2, v2⟩]).strainPeaks =
      [max (1 * decayPow (d1 / 1000) + v1 * 1) 1,
        (1 * decayPow (d1 / 1000) + v1 * 1) *
          decayPow (((⌈T1 / L⌉ : ℚ) * L - d1) / 1000),
        (1 * decayPow (d1 / 1000) + v1 * 1) *
          decayPow (((⌈T1 / L⌉ : ℚ) * L + L - d1) / 1000),
        max ((1 * decayPow (d1 / 1000) + v1 * 1) * decayPow (d2 / 1000) + v2 * 1)
          ((1 * decayPow (d1 / 1000) + v1 * 1) *
            decayPow (((⌈T1 / L⌉ : ℚ) * L + L + L - d1) / 1000))] := by
  have hLne : L ≠ 0 := ne_of_gt hL
  have hTleB : T1 ≤ (⌈T1 / L⌉ : ℚ) * L := by
    have h := Int.le_ceil (T1 / L)
    have h2 := mul_le_mul_of_nonneg_right h (le_of_lt hL)
    rwa [div_mul_cancel₀ T1 hLne] at h2
  have hTltB : T1 < (⌈T1 / L⌉ : ℚ) * L := lt_of_le_of_ne hTleB (Ne.symm hnb)
  have hBlt : (⌈T1 / L⌉ : ℚ) * L < T1 + L := by
    have h := Int.ceil_lt_add_one (T1 / L)
    have h2 := mul_lt_mul_of_pos_right h hL
    rw [add_mul, div_mul_cancel₀ T1 hLne, one_mul] at h2
    exact h2
  have hg1 : T1 + 3.5 * L > (⌈T1 / L⌉ : ℚ) * L := by linarith
  have hg2 : T1 + 3.5 * L > (⌈T1 / L⌉ : ℚ) * L + L := by linarith
  have hg3 : T1 + 3.5 * L > (⌈T1 / L⌉ : ℚ) * L + L + L := by linarith
  have hceil : ⌈(T1 + 3.5 * L - (⌈T1 / L⌉ : ℚ) * L) / L⌉ = (3 : ℤ) := by
    rw [Int.ceil_eq_iff]
    constructor
    · rw [lt_div_iff₀ hL]
      push_cast
      linarith
    · rw [div_le_iff₀ hL]
      push_cast
      linarith
  have hsteps : rolloverSteps L ((⌈T1 / L⌉ : ℚ) * L) (T1 + 3.5 * L) = 3 := by
    simp only [rolloverSteps, if_pos hL, hceil]
    rfl
  simp only [calculateStrain, strainLoop, rollover]
  rw [hsteps, show (3 : ℕ) = 2 + 1 from rfl]
  rw [rolloverFuel_step _ _ _ _ _ _ hg1]
  rw [show (2 : ℕ) = 1 + 1 from rfl]
  rw [rolloverFuel_step _ _ _ _ _ _ hg2]
  rw [show (1 : ℕ) = 0 + 1 from rfl]
  rw [rolloverFuel_step _ _ _ _ _ _ hg3]
  rw [rolloverFuel_zero]
  simp [StrainState.new, StrainState.process, StrainState.saveCurrentPeak,
    StrainState.startNewSectionFrom, StrainState.peakStrain, strainDecayWith]

/-- Witness for C3 at a concrete input: sections of length 400, first
object at t = 200 (half a section past the boundary), second at
t = 200 + 3.5 * 400 = 1600, identity in place of `powf`; the peak list
has exactly the 4 predicted entries. -/
theorem strain_section_rollover_witness :
    (0 : ℚ) < 400 ∧ (⌈(200 : ℚ) / 400⌉ : ℚ) * 400 ≠ 200 ∧
      (200 : ℚ) + 400 / 2 ≤ (⌈(200 : ℚ) / 400⌉ : ℚ) * 400 ∧
      (calculateStrain (fun x => x) 400
          [⟨200, 100, 2⟩, ⟨200 + 3.5 * 400, 1400, 3⟩]).strainPeaks =
        [21 / 10, 63 / 100, 147 / 100, 297 / 50] := by
  have hc : (⌈(200 : ℚ) / 400⌉ : ℤ) = 1 := by
    rw [Int.ceil_eq_iff]
    norm_num
  have h1 : (0 : ℚ) < 400 := by norm_num
  have h2 : (⌈(200 : ℚ) / 400⌉ : ℚ) * 400 ≠ 200 := by
    rw [hc]
    norm_num
  have h3 : (200 : ℚ) + 400 / 2 ≤ (⌈(200 : ℚ) / 400⌉ : ℚ) * 400 := by
    rw [hc]
    norm_num
  have h4 := strain_section_rollover (fun x => x) 400 200 100 2 1400 3 h1 h2 h3
  refine ⟨h1, h2, h3, ?_⟩
  rw [h4, hc]
  norm_num [max_def]

/-- Correctness of the embedded `binary_search_by` halving loop over a
strictly increasing index-to-time map `g` on `[0, len)`: a `found` result
is an in-window index hitting the target exactly, and a `notFound` result
separates the indices with time below the target from those above it. -/
theorem binarySearchLoop_spec (g : ℕ → ℚ) (t : ℚ) (len : ℕ)
    (hmono : ∀ i j : ℕ, i < j → j < len → g i < g j) :
    ∀ (fuel left right : ℕ), left ≤ right → right ≤ len → right - left ≤ fuel →
      (∀ j, j < left → g j < t) →
      (∀ j, right ≤ j → j < len → t < g j) →
      (match binarySearchLoop (fun i => compare (g i) t) fuel left right with
        | .found i => left ≤ i ∧ i < right ∧ g i = t
        | .notFound i => left ≤ i ∧ i ≤ right ∧ (∀ j, j < i → g j < t) ∧
            ∀ j, i ≤ j → j < len → t < g j) := by
  intro fuel
  induction fuel with
  | zero =>
    intro left right h1 h2 h3 hlo hhi
    have heq : left = right := by omega
    subst heq
    exact ⟨le_refl _, le_refl _, hlo, hhi⟩
  | succ fuel ih =>
    intro left right h1 h2 h3 hlo hhi
    by_cases hlr : left < right
    · simp only [binarySearchLoop, if_pos hlr]
      set mid := left + (right - left) / 2 with hmid
      have hmid1 : left ≤ mid := by omega
      have hmid2 : mid < right := by omega
      have hmidlen : mid < len := by omega
      rcases lt_trichotomy (g mid) t with hc | hc | hc
      · rw [compare_lt_iff_lt.mpr hc]
        have hlo2 : ∀ j, j < mid + 1 → g j < t := by
          intro j hj
          rcases lt_or_eq_of_le (Nat.lt_succ_iff.mp hj) with hj2 | hj2
          · exact lt_trans (hmono j mid hj2 hmidlen) hc
          · rw [hj2]; exact hc
        have hrec := ih (mid + 1) right (by omega) h2 (by omega) hlo2 hhi
        rcases hres : binarySearchLoop (fun i => compare (g i) t) fuel (mid + 1) right
          with i | i
        · rw [hres] at hrec
          exact ⟨by omega, hrec.2.1, hrec.2.2⟩
        · rw [hres] at hrec
          exact ⟨by omega, hrec.2.1, hrec.2.2⟩
      · rw [compare_eq_iff_eq.mpr hc]
        exact ⟨hmid1, hmid2, hc⟩
      · rw [compare_gt_iff_gt.mpr hc]
        have hhi2 : ∀ j, mid ≤ j → j < len → t < g j := by
          intro j hj hjlen
          rcases lt_or_eq_of_le hj with hj2 | hj2
          · exact lt_trans hc (hmono mid j hj2 hjlen)
          · rw [← hj2]; exact hc
        have hrec := ih left mid (by omega) (by omega) (by omega) hlo hhi2
        rcases hres : binarySearchLoop (fun i => compare (g i) t) fuel left mid
          with i | i
        · rw [hres] at hrec
          exact ⟨hrec.1, by omega, hrec.2.2⟩
        · rw [hres] at hrec
          exact ⟨hrec.1, by omega, hrec.2.2.1, hrec.2.2.2⟩
    · simp only [binarySearchLoop, if_neg hlr]
      exact ⟨le_refl _, h1, hlo, fun j hj hjlen => hhi j (by omega) hjlen⟩

/-- The binary search over a strictly time-sorted point list: a `found`
result is the unique in-bounds index whose time equals the query (and no
later index has time at most the query); a `notFound` result is the
insertion point separating times below the query from times above it. -/
theorem binarySearch_points_spec {α : Type} (points : List α) (timeOf : α → ℚ)
    (d : α) (t : ℚ)
    (hs : points.Pairwise fun a b => timeOf a < timeOf b) :
    (match binarySearchBy (fun j => compare (timeOf (points.getD j d)) t)
        points.length with
      | .found i => i < points.length ∧ timeOf (points.getD i d) = t ∧
          ∀ j, j < points.length → timeOf (points.getD j d) ≤ t → j ≤ i
      | .notFound i => i ≤ points.length ∧
          (∀ j, j < i → timeOf (points.getD j d) < t) ∧
          ∀ j, i ≤ j → j < points.length → t < timeOf (points.getD j d)) := by
  have hmono : ∀ i j : ℕ, i < j → j < points.length →
      timeOf (points.getD i d) < timeOf (points.getD j d) := by
    intro i j hij hj
    have hi : i < points.length := lt_trans hij hj
    rw [List.getD_eq_getElem points d hi, List.getD_eq_getElem points d hj]
    exact List.pairwise_iff_getElem.mp hs i j hi hj hij
  have h := binarySearchLoop_spec (fun j => timeOf (points.getD j d)) t
    points.length hmono points.length 0 points.length (Nat.zero_le _) (le_refl _)
    (by omega) (by omega) (by omega)
  rcases hres : binarySearchLoop
      (fun i => compare (timeOf (points.getD i d)) t) points.length 0
      points.length with i | i
  all_goals rw [show binarySearchBy (fun j => compare (timeOf (points.getD j d)) t)
    points.length = _ from hres]
  · rw [hres] at h
    simp only at h
    refine ⟨h.2.1, h.2.2, ?_⟩
    intro j hj hjle
    by_contra hcon
    have : timeOf (points.getD i d) < timeOf (points.getD j d) :=
      hmono i j (by omega) hj
    rw [h.2.2] at this
    exact absurd (lt_of_lt_of_le this hjle) (lt_irrefl t)
  · rw [hres] at h
    simp only at h
    exact ⟨h.2.1, h.2.2.1, h.2.2.2⟩

/-- If a boolean predicate holds for exactly the first `n` positions of a
list, filtering by it is taking the first `n` elements. -/
theorem filter_eq_take_of_iff {α : Type} (p : α → Bool) :
    ∀ (l : List α) (n : ℕ),
      (∀ (j : ℕ) (hj : j < l.length), p l[j] = true ↔ j < n) →
      l.filter p = l.take n := by
  intro l
  induction l with
  | nil =>
    intro n _
    simp
  | cons a tl ih =>
    intro n h
    have h0 := h 0 (by simp)
    cases n with
    | zero =>
      have hpa : p a = false := by
        rcases hb : p a with _ | _
        · rfl
        · exact absurd (h0.mp (by simpa using hb)) (by omega)
      have htl : tl.filter p = tl.take 0 := by
        apply ih
        intro j hj
        have := h (j + 1) (by simpa using Nat.succ_lt_succ hj)
        simpa using this
      simp [List.filter_cons, hpa, htl]
    | succ m =>
      have hpa : p a = true := h0.mpr (Nat.succ_pos m)
      have htl : tl.filter p = tl.take m := by
        apply ih
        intro j hj
        have := h (j + 1) (by simpa using Nat.succ_lt_succ hj)
        simpa [Nat.succ_lt_succ_iff] using this
      simp [List.filter_cons, hpa, htl]

/-- The last element of `take (i + 1)` is the element at index `i`. -/
theorem getLast_take_succ {α : Type} (l : List α) (i : ℕ) (h : i < l.length) :
    (l.take (i + 1)).getLast? = l[i]? := by
  rw [List.getLast?_eq_getElem?, List.length_take]
  have hmin : min (i + 1) l.length = i + 1 := by omega
  rw [hmin]
  simp [List.getElem?_take_of_lt (l := l) (Nat.lt_succ_self i)]

/-- C7 (amended): on a strictly time-sorted control-point sequence, both
lookups return the last control point whose time is ≤ T whenever one
exists; when no control point precedes T, `difficulty_point_at` yields
`none` (so the caller's documented default applies), but
`timing_point_at` instead returns the *first* point of a nonempty
sequence (it yields `none` only for an empty sequence). -/
theorem control_point_lookup_semantics (tps : List TimingPoint)
    (dps : List DifficultyPoint) (t : ℚ)
    (hts : tps.Pairwise fun a b => a.time < b.time)
    (hds : dps.Pairwise fun a b => a.time < b.time) :
    difficultyPointAt dps t = specLastDifficultyAtOrBefore dps t ∧
      timingPointAt tps t = (specLastTimingAtOrBefore tps t).or tps.head? := by
  constructor
  · have hd := binarySearch_points_spec dps DifficultyPoint.time ⟨0, 0⟩ t hds
    rcases hres : binarySearchBy
        (fun j => compare ((dps.getD j ⟨0, 0⟩).time) t) dps.length with i | i
    · rw [hres] at hd
      simp only at hd
      obtain ⟨hilen, hieq, hlast⟩ := hd
      rw [List.getD_eq_getElem _ _ hilen] at hieq
      have hfil : dps.filter (fun p => decide (p.time ≤ t)) = dps.take (i + 1) := by
        apply filter_eq_take_of_iff
        intro j hj
        simp only [decide_eq_true_eq]
        constructor
        · intro hle
          refine Nat.lt_succ_of_le (hlast j hj ?_)
          rw [List.getD_eq_getElem _ _ hj]
          exact hle
        · intro hlt
          rcases lt_or_eq_of_le (Nat.lt_succ_iff.mp hlt) with hj2 | hj2
          · have hlt2 := List.pairwise_iff_getElem.mp hds j i hj hilen hj2
            exact le_of_lt (lt_of_lt_of_le hlt2 (le_of_eq hieq))
          · subst hj2
            exact le_of_eq hieq
      simp only [difficultyPointAt, hres, specLastDifficultyAtOrBefore, hfil,
        getLast_take_succ dps i hilen, Option.bind]
    · rw [hres] at hd
      simp only at hd
      obtain ⟨hilen, hbelow, habove⟩ := hd
      cases i with
      | zero =>
        have hfil : dps.filter (fun p => decide (p.time ≤ t)) = dps.take 0 := by
          apply filter_eq_take_of_iff
          intro j hj
          simp only [decide_eq_true_eq]
          constructor
          · intro hle
            have := habove j (Nat.zero_le j) hj
            rw [List.getD_eq_getElem _ _ hj] at this
            exact absurd (lt_of_lt_of_le this hle) (lt_irrefl t)
          · omega
        simp only [difficultyPointAt, hres, specLastDifficultyAtOrBefore, hfil]
        simp
      | succ k =>
        have hklen : k < dps.length := by omega
        have hfil : dps.filter (fun p => decide (p.time ≤ t)) = dps.take (k + 1) := by
          apply filter_eq_take_of_iff
          intro j hj
          simp only [decide_eq_true_eq]
          constructor
          · intro hle
            by_contra hcon
            have := habove j (by omega) hj
            rw [List.getD_eq_getElem _ _ hj] at this
            exact absurd (lt_of_lt_of_le this hle) (lt_irrefl t)
          · intro hlt
            have := hbelow j hlt
            rw [List.getD_eq_getElem _ _ hj] at this
            exact le_of_lt this
        simp only [difficultyPointAt, hres, specLastDifficultyAtOrBefore, hfil,
          getLast_take_succ dps k hklen, Option.bind]
  · have hd := binarySearch_points_spec tps TimingPoint.time ⟨0, 0⟩ t hts
    rcases hres : binarySearchBy
        (fun j => compare ((tps.getD j ⟨0, 0⟩).time) t) tps.length with i | i
    · rw [hres] at hd
      simp only at hd
      obtain ⟨hilen, hieq, hlast⟩ := hd
      rw [List.getD_eq_getElem _ _ hilen] at hieq
      have hfil : tps.filter (fun p => decide (p.time ≤ t)) = tps.take (i + 1) := by
        apply filter_eq_take_of_iff
        intro j hj
        simp only [decide_eq_true_eq]
        constructor
        · intro hle
          refine Nat.lt_succ_of_le (hlast j hj ?_)
          rw [List.getD_eq_getElem _ _ hj]
          exact hle
        · intro hlt
          rcases lt_or_eq_of_le (Nat.lt_succ_iff.mp hlt) with hj2 | hj2
          · have hlt2 := List.pairwise_iff_getElem.mp hts j i hj hilen hj2
            exact le_of_lt (lt_of_lt_of_le hlt2 (le_of_eq hieq))
          · subst hj2
            exact le_of_eq hieq
      rw [timingPointAt, hres]
      simp only [specLastTimingAtOrBefore, hfil, getLast_take_succ tps i hilen,
        List.getElem?_eq_getElem hilen, Option.or]
    · rw [hres] at hd
      simp only at hd
      obtain ⟨hilen, hbelow, habove⟩ := hd
      cases i with
      | zero =>
        have hfil : tps.filter (fun p => decide (p.time ≤ t)) = tps.take 0 := by
          apply filter_eq_take_of_iff
          intro j hj
          simp only [decide_eq_true_eq]
          constructor
          · intro hle
            have := habove j (Nat.zero_le j) hj
            rw [List.getD_eq_getElem _ _ hj] at this
            exact absurd (lt_of_lt_of_le this hle) (lt_irrefl t)
          · omega
        rw [timingPointAt, hres]
        simp [specLastTimingAtOrBefore, hfil, List.head?_eq_getElem?]
      | succ k =>
        have hklen : k < tps.length := by omega
        have hfil : tps.filter (fun p => decide (p.time ≤ t)) = tps.take (k + 1) := by
          apply filter_eq_take_of_iff
          intro j hj
          simp only [decide_eq_true_eq]
          constructor
          · intro hle
            by_contra hcon
            have := habove j (by omega) hj
            rw [List.getD_eq_getElem _ _ hj] at this
            exact absurd (lt_of_lt_of_le this hle) (lt_irrefl t)
          · intro hlt
            have := hbelow j hlt
            rw [List.getD_eq_getElem _ _ hj] at this
            exact le_of_lt this
        rw [timingPointAt, hres]
        simp only [specLastTimingAtOrBefore, hfil, getLast_take_succ tps k hklen,
          List.getElem?_eq_getElem hklen, Option.or, Nat.add_sub_cancel]

/-- C7 counterexample: with a single timing point at time 100 and query
time 50, no control point precedes the query, yet `timing_point_at`
returns that first point (time 100 > 50) instead of the documented
default; `difficulty_point_at` on the same data correctly yields `none`. -/
theorem timing_point_fallback_counterexample :
    timingPointAt [⟨100, 500⟩] 50 = some ⟨100, 500⟩ ∧
      difficultyPointAt [⟨100, 500⟩] 50 = none ∧ ¬((100 : ℚ) ≤ 50) := by
  refine ⟨by decide, by decide, by norm_num⟩

/-- Witness for C7 at concrete data: two timing points (times 100 and
300) and one difficulty point (time 500), queried at time 350; the
timing lookup returns the last point at or before 350 and the difficulty
lookup returns `none` because no difficulty point precedes 350. -/
theorem control_point_lookup_semantics_witness :
    ([⟨100, 1⟩, ⟨300, 2⟩] : List TimingPoint).Pairwise
        (fun a b => a.time < b.time) ∧
      ([⟨500, 5⟩] : List DifficultyPoint).Pairwise
        (fun a b => a.time < b.time) ∧
      (difficultyPointAt [⟨500, 5⟩] 350 =
          specLastDifficultyAtOrBefore [⟨500, 5⟩] 350 ∧
        timingPointAt [⟨100, 1⟩, ⟨300, 2⟩] 350 =
          (specLastTimingAtOrBefore [⟨100, 1⟩, ⟨300, 2⟩] 350).or
            ([⟨100, 1⟩, ⟨300, 2⟩] : List TimingPoint).head?) ∧
      timingPointAt [⟨100, 1⟩, ⟨300, 2⟩] 350 = some ⟨300, 2⟩ ∧
      difficultyPointAt [⟨500, 5⟩] 350 = none := by
  have hts : ([⟨100, 1⟩, ⟨300, 2⟩] : List TimingPoint).Pairwise
      (fun a b => a.time < b.time) := by decide
  have hds : ([⟨500, 5⟩] : List DifficultyPoint).Pairwise
      (fun a b => a.time < b.time) := by decide
  exact ⟨hts, hds,
    control_point_lookup_semantics [⟨100, 1⟩, ⟨300, 2⟩] [⟨500, 5⟩] 350 hts hds,
    by decide, by decide⟩

/-- C8 counterexample: for coincident timestamps (raw difference 0) at
clock rate 1, `mania_2018::DifficultyHitObject::new` produces a delta of
exactly 0 — there is no floor clamp in that mode — while
`osu_2015::DifficultyObject::new` floor-clamps the same situation to its
50 ms minimum. -/
theorem mania_delta_unclamped_counterexample :
    (ManiaDifficultyHitObject.new ⟨256, 100⟩ ⟨256, 100⟩ 4 1).delta = 0 ∧
      (Osu2015DifficultyObject.new (fun _ => 0) ⟨(0, 0), (0, 0), 100, none⟩
          ⟨(0, 0), (0, 0), 100, none⟩ 1 1).delta = 50 ∧
      ¬(50 : ℚ) ≤ 0 := by
  refine ⟨?_, ?_, by norm_num⟩
  · norm_num [ManiaDifficultyHitObject.new]
  · norm_num [Osu2015DifficultyObject.new]

/-- C8 (amended): the difficulty-object delta is the raw time difference
divided by the clock rate; `osu_2015` floor-clamps it at 50 ms (so no
produced delta is below 50, even for coincident timestamps), while
`mania_2018` applies no floor at all; before any clamp, increasing the
clock rate strictly decreases the delta of a positive raw difference. -/
theorem difficulty_object_delta (lengthFn : ℚ × ℚ → ℚ)
    (base prev : Osu2015Object) (mbase mprev : ManiaHitObject)
    (columns scalingFactor r r₂ : ℚ)
    (hr : 0 < r) (hr2 : r < r₂) (hraw : 0 < base.time - prev.time) :
    (Osu2015DifficultyObject.new lengthFn base prev r scalingFactor).delta =
        max ((base.time - prev.time) / r) 50 ∧
      50 ≤ (Osu2015DifficultyObject.new lengthFn base prev r scalingFactor).delta ∧
      (ManiaDifficultyHitObject.new mbase mprev columns r).delta =
        (mbase.startTime - mprev.startTime) / r ∧
      (base.time - prev.time) / r₂ < (base.time - prev.time) / r := by
  refine ⟨rfl, le_max_right _ _, rfl, ?_⟩
  rw [div_lt_div_iff₀ (by linarith) hr]
  have h := mul_lt_mul_of_pos_left hr2 hraw
  linarith

/-- Witness for C8 at a concrete input: raw difference 30 ms, clock
rates 1 and 2; `osu_2015` clamps 30 up to 50, `mania_2018` keeps 30, and
the pre-clamp delta halves at the doubled rate. -/
theorem difficulty_object_delta_witness :
    (0 : ℚ) < 1 ∧ (1 : ℚ) < 2 ∧
      (0 : ℚ) < (Osu2015Object.mk (0, 0) (0, 0) 130 none).time -
        (Osu2015Object.mk (0, 0) (0, 0) 100 none).time ∧
      (Osu2015DifficultyObject.new (fun _ => 0) ⟨(0, 0), (0, 0), 130, none⟩
          ⟨(0, 0), (0, 0), 100, none⟩ 1 1).delta = 50 ∧
      (ManiaDifficultyHitObject.new ⟨256, 130⟩ ⟨256, 100⟩ 4 1).delta = 30 ∧
      ((130 : ℚ) - 100) / 2 < ((130 : ℚ) - 100) / 1 := by
  have h1 : (0 : ℚ) < 1 := by norm_num
  have h2 : (1 : ℚ) < 2 := by norm_num
  have h3 : (0 : ℚ) < (Osu2015Object.mk (0, 0) (0, 0) 130 none).time -
      (Osu2015Object.mk (0, 0) (0, 0) 100 none).time := by norm_num
  have h := difficulty_object_delta (fun _ => 0) ⟨(0, 0), (0, 0), 130, none⟩
    ⟨(0, 0), (0, 0), 100, none⟩ ⟨256, 130⟩ ⟨256, 100⟩ 4 1 1 2 h1 h2 h3
  refine ⟨h1, h2, h3, ?_, ?_, ?_⟩
  · rw [h.1]
    norm_num [max_def]
  · rw [h.2.2.1]
    norm_num
  · exact h.2.2.2

/-- C9 counterexample: `mania_2018::calculate_strain` on a fruits-mode
(Catch) map hits the explicit `panic!` branch of the column selection —
the calculation is not total over every game mode of the supplied map. -/
theorem mania_columns_fruits_panic_counterexample :
    maniaColumns GameMode.fruits 4 5 1 1 1 =
      Except.error "can not calculate mania difficulty on a fruits map" := rfl

/-- C9 (amended): `mania_2018::calculate_strain` is not total over every
game mode of the supplied map: its column selection panics exactly for
Taiko- and Catch-mode maps, and returns a column count for every Mania-
and Osu-mode map — under the release-mode wrapping `u8` arithmetic of
the Osu fallback arm (a debug build would additionally overflow-panic
there when od rounds to 255). -/
theorem mania_columns_mode_totality (mode : GameMode) (cs od : ℚ)
    (nCircles nSliders nSpinners : ℕ) :
    (∃ n, maniaColumns mode cs od nCircles nSliders nSpinners = Except.ok n) ↔
      (mode = GameMode.mania ∨ mode = GameMode.osu) := by
  cases mode <;> simp [maniaColumns]

/-- C2 counterexample: a taiko map with a single hit object (one circle)
(a) panics instead of returning a zero-star result when
`passed_objects = 5` keeps `take ≥ 2`, and (b) on the guarded path
(`passed_objects = None`) returns `max_combo = n_circles = 1`, not a
zero object count. -/
theorem degenerate_guard_counterexample :
    taikoPpv1Stars (fun _ _ => { stars := 99, maxCombo := 99 }) ⟨[0], 1⟩ (some 5) =
        Except.error "called unwrap on a None value" ∧
      taikoPpv1Stars (fun _ _ => { stars := 99, maxCombo := 99 }) ⟨[0], 1⟩ none =
        Except.ok { stars := 0, maxCombo := 1 } ∧
      (1 : ℕ) ≠ 0 := by
  refine ⟨rfl, rfl, by norm_num⟩

/-- C2 (amended): `taiko_ppv1::stars` returns early exactly when
`take = passed_objects.unwrap_or(len) < 2`, yielding a star rating of
exactly 0 with `max_combo` echoing the map's circle count — without
consulting the skill pipeline (the result is independent of the
`pipeline` parameter); `fruits_ppv1::stars` returns the all-zero default
attributes whenever the chart has fewer than 2 hit objects. (A chart
with fewer than 2 objects but `passed_objects ≥ 2` instead panics in
taiko_ppv1.) -/
theorem degenerate_input_guard (pipeline : TaikoMap → ℕ → TaikoPpv1Attrs)
    (cpipeline : List ℚ → ℕ → CatchAttrs) (map : TaikoMap) (passed : Option ℕ)
    (hitObjects : List ℚ) (mods : ℕ)
    (htake : passed.getD map.hitObjects.length < 2)
    (hlen : hitObjects.length < 2) :
    taikoPpv1Stars pipeline map passed =
        Except.ok { stars := 0, maxCombo := map.nCircles } ∧
      fruitsPpv1Stars cpipeline hitObjects mods = catchDefault := by
  constructor
  · simp [taikoPpv1Stars, htake]
  · simp [fruitsPpv1Stars, hlen]

/-- Witness for C2 at concrete degenerate inputs: a one-object taiko map
with three circles counted and no passed-objects override, and a
one-object fruits chart; both guards fire and neither pipeline (each a
junk function) is consulted. -/
theorem degenerate_input_guard_witness :
    (Option.none.getD (TaikoMap.mk [0] 3).hitObjects.length < 2) ∧
      ([(7 : ℚ)].length < 2) ∧
      taikoPpv1Stars (fun _ _ => { stars := 42, maxCombo := 42 }) ⟨[0], 3⟩ none =
        Except.ok { stars := 0, maxCombo := 3 } ∧
      fruitsPpv1Stars (fun _ _ => { catchDefault with stars := 42 }) [7] 0 =
        catchDefault := by
  have h1 : (Option.none.getD (TaikoMap.mk [0] 3).hitObjects.length < 2) := by
    norm_num
  have h2 : ([(7 : ℚ)].length < 2) := by norm_num
  have h := degenerate_input_guard (fun _ _ => { stars := 42, maxCombo := 42 })
    (fun _ _ => { catchDefault with stars := 42 }) ⟨[0], 3⟩ none [7] 0 h1 h2
  exact ⟨h1, h2, h.1, h.2⟩

/-- Expansion distributes over entry-list append. -/
theorem expandEntries_append (a b : List StrainsEntry) :
    expandEntries (a ++ b) = expandEntries a ++ expandEntries b := by
  simp [expandEntries]

/-- The zero path of `push` appends exactly one zero to the expansion. -/
theorem pushZeroEntry_expand : ∀ es : List StrainsEntry,
    expandEntries (pushZeroEntry es) = expandEntries es ++ [0] := by
  intro es
  induction es with
  | nil => simp [pushZeroEntry, expandEntries, StrainsEntry.expand]
  | cons e rest ih =>
    cases rest with
    | nil =>
      cases e with
      | value v => simp [pushZeroEntry, expandEntries, StrainsEntry.expand]
      | zeroRun n =>
        simp [pushZeroEntry, expandEntries, StrainsEntry.expand,
          List.replicate_succ']
    | cons e2 rest2 =>
      simp only [pushZeroEntry, expandEntries, List.flatMap_cons] at ih ⊢
      rw [ih]
      simp [List.append_assoc]

/-- The zero path of `push` preserves well-formedness. -/
theorem pushZeroEntry_wf : ∀ es : List StrainsEntry,
    EntriesWF es → EntriesWF (pushZeroEntry es) := by
  intro es
  induction es with
  | nil =>
    intro _ n hn
    simp only [pushZeroEntry, List.mem_singleton,
      StrainsEntry.zeroRun.injEq] at hn
    omega
  | cons e rest ih =>
    intro hwf
    cases rest with
    | nil =>
      cases e with
      | value v =>
        intro n hn
        simp only [pushZeroEntry, List.mem_cons, List.mem_singleton] at hn
        rcases hn with h | h <;> simp_all
      | zeroRun m =>
        intro n hn
        simp only [pushZeroEntry, List.mem_singleton,
          StrainsEntry.zeroRun.injEq] at hn
        omega
    | cons e2 rest2 =>
      intro n hn
      simp only [pushZeroEntry, List.mem_cons] at hn
      rcases hn with h | h
      · exact hwf n (by simp [h])
      · refine ih (fun m hm => hwf m (List.mem_cons_of_mem e hm)) n ?_
        exact h

/-- One `push` of a non-negative value appends that value to the
expansion, increments the logical length, and preserves
well-formedness. -/
theorem push_spec (sv : StrainsVec) (x : ℚ) (hx : 0 ≤ x)
    (hwf : EntriesWF sv.inner) :
    EntriesWF (sv.push x).inner ∧
      expandEntries (sv.push x).inner = expandEntries sv.inner ++ [x] ∧
      (sv.push x).len = sv.len + 1 := by
  by_cases hpos : 0 < x
  · refine ⟨?_, ?_, ?_⟩
    · intro n hn
      simp only [StrainsVec.push, if_pos hpos, List.mem_append,
        List.mem_singleton] at hn
      rcases hn with h | h
      · exact hwf n h
      · exact absurd h (by simp)
    · simp [StrainsVec.push, if_pos hpos, expandEntries_append, expandEntries,
        StrainsEntry.expand]
    · simp [StrainsVec.push, if_pos hpos]
  · have hx0 : x = 0 := le_antisymm (not_lt.mp hpos) hx
    subst hx0
    refine ⟨?_, ?_, ?_⟩
    · simp only [StrainsVec.push, if_neg hpos]
      exact pushZeroEntry_wf sv.inner hwf
    · simp [StrainsVec.push, if_neg hpos, pushZeroEntry_expand]
    · simp [StrainsVec.push, if_neg hpos]

/-- Folding `push` over a list of non-negative values: the expansion is
the initial expansion followed by the pushed values, lengths add up, and
well-formedness is preserved. -/
theorem pushAll_go : ∀ (vs : List ℚ) (sv : StrainsVec),
    (∀ x ∈ vs, 0 ≤ x) → EntriesWF sv.inner →
    EntriesWF (vs.foldl StrainsVec.push sv).inner ∧
      expandEntries (vs.foldl StrainsVec.push sv).inner =
        expandEntries sv.inner ++ vs ∧
      (vs.foldl StrainsVec.push sv).len = sv.len + vs.length := by
  intro vs
  induction vs with
  | nil =>
    intro sv _ hwf
    exact ⟨hwf, by simp, by simp⟩
  | cons v vt ih =>
    intro sv hnn hwf
    have hv : 0 ≤ v := hnn v (by simp)
    have hp := push_spec sv v hv hwf
    have hrec := ih (sv.push v) (fun x hx => hnn x (by simp [hx])) hp.1
    refine ⟨hrec.1, ?_, ?_⟩
    · rw [List.foldl_cons, hrec.2.1, hp.2.1, List.append_assoc]
      rfl
    · rw [List.foldl_cons, hrec.2.2, hp.2.2]
      simp [Nat.add_assoc, Nat.add_comm 1 vt.length]

/-- An exhausted iterator (current entry `none`) yields nothing. -/
theorem iterDrainFuel_none (fuel : ℕ) (rest : List StrainsEntry) :
    iterDrainFuel fuel none rest = [] := by
  cases fuel <;> simp [iterDrainFuel, iterNext]

/-- Skipping an exhausted zero run at the end of the entries. -/
theorem iterDrainFuel_skip_nil (fuel : ℕ) :
    iterDrainFuel fuel (some (StrainsEntry.zeroRun 0)) [] = [] := by
  cases fuel <;> simp [iterDrainFuel, iterNext]

/-- Skipping an exhausted zero run advances to the next entry without
consuming the budget. -/
theorem iterDrainFuel_skip_cons (fuel : ℕ) (e : StrainsEntry)
    (rest : List StrainsEntry) :
    iterDrainFuel fuel (some (StrainsEntry.zeroRun 0)) (e :: rest) =
      iterDrainFuel fuel (some e) rest := by
  cases fuel <;> simp [iterDrainFuel, iterNext]

/-- Every entry emits at least one element's worth of weight. -/
theorem entryWeight_pos (e : StrainsEntry) : 1 ≤ entryWeight e := by
  cases e <;> simp [entryWeight]

/-- Draining the iterator from a well-formed state reproduces exactly
the expansion of the remaining entries, given enough budget. -/
theorem iterDrainFuel_expand : ∀ (fuel : ℕ) (e : StrainsEntry)
    (rest : List StrainsEntry), EntriesWF (e :: rest) →
    entriesWeight (e :: rest) ≤ fuel →
    iterDrainFuel fuel (some e) rest = expandEntries (e :: rest) := by
  intro fuel
  induction fuel with
  | zero =>
    intro e rest _ hw
    have := entryWeight_pos e
    simp only [entriesWeight, List.map_cons, List.sum_cons] at hw
    omega
  | succ fuel ih =>
    intro e rest hwf hw
    match e with
    | StrainsEntry.value v =>
      cases rest with
      | nil =>
        simp [iterDrainFuel, iterNext, iterDrainFuel_none, expandEntries,
          StrainsEntry.expand]
      | cons r rs =>
        have hrec := ih r rs (fun m hm => hwf m (List.mem_cons_of_mem _ hm)) ?_
        · simp only [iterDrainFuel, iterNext, List.head?_cons, List.tail_cons]
          rw [hrec]
          simp [expandEntries, StrainsEntry.expand]
        · simp only [entriesWeight, List.map_cons, List.sum_cons,
            entryWeight] at hw ⊢
          omega
    | StrainsEntry.zeroRun n =>
      have hn : 1 ≤ n := hwf n (by simp)
      match n, hn with
      | 1, _ =>
        cases rest with
        | nil =>
          simp only [iterDrainFuel, iterNext]
          rw [iterDrainFuel_skip_nil]
          simp [expandEntries, StrainsEntry.expand]
        | cons r rs =>
          have hrec := ih r rs (fun m hm => hwf m (List.mem_cons_of_mem _ hm)) ?_
          · simp only [iterDrainFuel, iterNext]
            rw [iterDrainFuel_skip_cons, hrec]
            simp [expandEntries, StrainsEntry.expand]
          · simp only [entriesWeight, List.map_cons, List.sum_cons,
              entryWeight] at hw ⊢
            omega
      | m + 2, _ =>
        have hwf2 : EntriesWF (StrainsEntry.zeroRun (m + 1) :: rest) := by
          intro k hk
          rcases List.mem_cons.mp hk with h | h
          · simp only [StrainsEntry.zeroRun.injEq] at h
            omega
          · exact hwf k (List.mem_cons_of_mem _ h)
        have hrec := ih (StrainsEntry.zeroRun (m + 1)) rest hwf2 ?_
        · simp only [iterDrainFuel, iterNext]
          rw [hrec]
          simp [expandEntries, StrainsEntry.expand, List.replicate_succ]
        · simp only [entriesWeight, List.map_cons, List.sum_cons,
            entryWeight] at hw ⊢
          omega

/-- `iter` on a well-formed `StrainsVec` reproduces the expansion of its
entries. -/
theorem iterToList_eq_expand (sv : StrainsVec) (hwf : EntriesWF sv.inner) :
    sv.iterToList = expandEntries sv.inner := by
  rcases hsv : sv.inner with _ | ⟨e, rest⟩
  · simp [StrainsVec.iterToList, hsv, iterDrainFuel_none, expandEntries]
  · rw [StrainsVec.iterToList, hsv]
    simp only [List.head?_cons, List.tail_cons]
    refine iterDrainFuel_expand _ e rest ?_ (Nat.le_succ _)
    rw [← hsv]
    exact hwf

/-- `into_vec` equals the expansion of the entries. -/
theorem intoVec_eq_expand : ∀ es : List StrainsEntry,
    intoVecAux es = expandEntries es := by
  intro es
  induction es with
  | nil => rfl
  | cons e rest ih =>
    cases e with
    | value v => simp [intoVecAux, expandEntries, StrainsEntry.expand, ih]
    | zeroRun n => simp [intoVecAux, expandEntries, StrainsEntry.expand, ih]

/-- C10: for every sequence of non-negative values pushed into a
`StrainsVec`, the compressed representation is observationally a plain
vector: `len()` counts the pushed values, and both `into_vec()` and the
iterator reproduce exactly the pushed values in push order. -/
theorem strains_vec_observational (vs : List ℚ) (hnn : ∀ x ∈ vs, 0 ≤ x) :
    (pushAll vs).len = vs.length ∧
      (pushAll vs).intoVec = vs ∧
      (pushAll vs).iterToList = vs := by
  have hwf0 : EntriesWF StrainsVec.withCapacity.inner := by
    intro n hn
    simp [StrainsVec.withCapacity] at hn
  have h := pushAll_go vs StrainsVec.withCapacity hnn hwf0
  have hexp : expandEntries (pushAll vs).inner = vs := by
    rw [pushAll, h.2.1]
    simp [StrainsVec.withCapacity, expandEntries]
  refine ⟨?_, ?_, ?_⟩
  · rw [pushAll, h.2.2]
    simp [StrainsVec.withCapacity]
  · rw [StrainsVec.intoVec, intoVec_eq_expand, hexp]
  · rw [iterToList_eq_expand (pushAll vs) h.1, hexp]

/-- Witness for C10 at the concrete pushed sequence `[1, 0, 0, 2, 0]`:
the compressed entries run-length encode the zeros, yet length,
`into_vec` and the iterator reproduce the pushed sequence exactly. -/
theorem strains_vec_observational_witness :
    (∀ x ∈ [(1 : ℚ), 0, 0, 2, 0], 0 ≤ x) ∧
      (pushAll [(1 : ℚ), 0, 0, 2, 0]).inner =
        [StrainsEntry.value 1, StrainsEntry.zeroRun 2, StrainsEntry.value 2,
          StrainsEntry.zeroRun 1] ∧
      (pushAll [(1 : ℚ), 0, 0, 2, 0]).len = 5 ∧
      (pushAll [(1 : ℚ), 0, 0, 2, 0]).intoVec = [1, 0, 0, 2, 0] ∧
      (pushAll [(1 : ℚ), 0, 0, 2, 0]).iterToList = [1, 0, 0, 2, 0] := by
  have hnn : ∀ x ∈ [(1 : ℚ), 0, 0, 2, 0], 0 ≤ x := by norm_num
  have h := strains_vec_observational [(1 : ℚ), 0, 0, 2, 0] hnn
  exact ⟨hnn, by decide, h.1, h.2.1, h.2.2⟩
